import Mathlib

/-!
Verification development for the `storage_utils` path library
(`src/storage_utils/base.py`).

Python strings are modelled as `List Char`; a value that can be either a
plain `str` or a `Path` instance (`Path` subclasses `text_type`,
base.py line 17) is modelled by the tagged type `PyStr`.  The per-variant
path modules (`posixpath`, `ntpath`) are external collaborators of the
repository; the POSIX module's pure string functions are embedded from
their reference implementations further below.
-/

namespace StorageUtils

/-- Python strings, modelled as lists of characters. -/
abbrev PyChars := List Char

/-- The three concrete path variants selected by the factory in
`Path.__new__` (base.py lines 35-51): local-POSIX, local-Windows and the
object-store variant. -/
inductive Variant
  | posix
  | windows
  | objectStore
deriving DecidableEq

/-- Identity of a path-module object (the thing compared by
`other.path_module != self.path_module` in base.py line 62). -/
inductive ModId
  | posixMod
  | ntMod
  | obsMod
deriving DecidableEq

/-- Modelled from the spec: the concrete subclass files (`posix.py`,
`windows.py`, `swift.py`) that set each subclass's `path_module` attribute
are not under `src/`.  The spec (section 2, section 4.1) assigns one
PathModule variant per backend family (POSIX, Windows, Object-Store), so
each variant carries its own module identity. -/
def Variant.modId : Variant → ModId
  | .posix => .posixMod
  | .windows => .ntMod
  | .objectStore => .obsMod

/-- A Python value that is a string: either a plain `str`, or a `Path`
instance tagged with its variant (base.py line 17: `Path` subclasses
`text_type`, so every `Path` is also a string). -/
inductive PyStr
  | plain (s : PyChars)
  | path (v : Variant) (s : PyChars)
deriving DecidableEq

/-- The underlying character data of a Python string value. -/
def PyStr.str : PyStr → PyChars
  | .plain s => s
  | .path _ s => s

/-- Whether a value is a `Path` instance (the `isinstance(other, Path)`
check of base.py line 62). -/
def PyStr.isPath : PyStr → Bool
  | .plain _ => false
  | .path _ _ => true

/-- Whether a value is a `Path` instance of the given variant. -/
def PyStr.isPathOfV (v : Variant) : PyStr → Bool
  | .plain _ => false
  | .path w _ => w == v

/-- A path module: the record of pure string functions a variant delegates
to (`self.path_module.<fn>` in base.py).  `join2` is the two-argument form
of `join`. -/
structure PathModule where
  join2 : PyChars → PyChars → PyChars
  split : PyChars → PyChars × PyChars
  splitext : PyChars → PyChars × PyChars
  splitdrive : PyChars → PyChars × PyChars
  normpath : PyChars → PyChars
  abspath : PyChars → PyChars
  realpath : PyChars → PyChars
  normcase : PyChars → PyChars
  expanduser : PyChars → PyChars
  expandvars : PyChars → PyChars
  dirname : PyChars → PyChars
  basename : PyChars → PyChars

/-- `Path._has_incompatible_path_module` (base.py lines 59-62): true iff the
other value is a `Path` whose path module differs from `self`'s. -/
def hasIncompatiblePathModule (v : Variant) : PyStr → Bool
  | .plain _ => false
  | .path w _ => w.modId != v.modId

/-- `Path.__div__` / `__truediv__` (base.py lines 70-74):
`self.path_class(self.path_module.join(self, rel))`, or `NotImplemented`
(`none`) when the path modules are incompatible.  A plain `str` left
operand has no `__div__`, which is also `NotImplemented`. -/
def tryDiv (impl : ModId → PathModule) : PyStr → PyStr → Option PyStr
  | .path v s, other =>
    if hasIncompatiblePathModule v other then none
    else some (.path v ((impl v.modId).join2 s other.str))
  | .plain _, _ => none

/-- `Path.__rdiv__` / `__rtruediv__` (base.py lines 76-80):
`self.path_class(self.path_module.join(rel, self))`, or `NotImplemented`. -/
def tryRDiv (impl : ModId → PathModule) : PyStr → PyStr → Option PyStr
  | .path v s, other =>
    if hasIncompatiblePathModule v other then none
    else some (.path v ((impl v.modId).join2 other.str s))
  | .plain _, _ => none

/-- Python errors surfaced by the operations modelled here.  `typeError` is
what Python raises when both operands of a binary operator return
`NotImplemented`; the spec calls this condition `IncompatiblePathError`. -/
inductive PyErr
  | typeError
deriving DecidableEq

/-- Python's dispatch for `a / b`: try `a.__truediv__(b)`, then
`b.__rtruediv__(a)`, and raise `TypeError` when both return
`NotImplemented`.  (The variants are sibling classes, so the reflected
operand is tried second.) -/
def pyDiv (impl : ModId → PathModule) (a b : PyStr) : Except PyErr PyStr :=
  match tryDiv impl a b with
  | some r => .ok r
  | none =>
    match tryRDiv impl b a with
    | some r => .ok r
    | none => .error .typeError

/-- `Path.__add__` (base.py lines 86-89):
`self.path_class(super(Path, self).__add__(more))` — raw string
concatenation rewrapped — or `NotImplemented` on an incompatible path
module.  A plain `str` left operand concatenates with any string
(including `Path` instances, which are strings). -/
def tryAdd : PyStr → PyStr → Option PyStr
  | .path v s, other =>
    if hasIncompatiblePathModule v other then none
    else some (.path v (s ++ other.str))
  | .plain s, other => some (.plain (s ++ other.str))

/-- `Path.__radd__` (base.py lines 91-96): checks the path-module
compatibility, then requires `other` to be a string (every `PyStr` is), and
returns `self.path_class(other.__add__(self))`.  A plain `str` has no
`__radd__`. -/
def tryRAdd : PyStr → PyStr → Option PyStr
  | .path v s, other =>
    if hasIncompatiblePathModule v other then none
    else some (.path v (other.str ++ s))
  | .plain _, _ => none

/-- Python's dispatch for `a + b`: `a.__add__(b)`, then `b.__radd__(a)`,
else `TypeError`. -/
def pyAdd (a b : PyStr) : Except PyErr PyStr :=
  match tryAdd a b with
  | some r => .ok r
  | none =>
    match tryRAdd b a with
    | some r => .ok r
    | none => .error .typeError

/-- Modelled from the spec: `utils.is_swift_path` (module
`storage_utils/utils.py`) is not under `src/`.  Spec section 4.1: "Inspect
`raw` for an object-store scheme prefix (e.g., `swift://`, `s3://`); if
present, select the Object-Store variant regardless of host OS." -/
def is_obs_path (raw : PyChars) : Bool :=
  List.isPrefixOf "swift://".toList raw || List.isPrefixOf "s3://".toList raw

/-- The host environment's native path convention: which module `os.path`
is bound to (`ntpath` on Windows, `posixpath` on POSIX hosts). -/
inductive HostOS
  | posixHost
  | windowsHost
deriving DecidableEq

/-- `Path.__new__` (base.py lines 35-51): scheme check first and
independent of host, then `os.path == ntpath` selects the Windows variant,
then `os.path == posixpath` selects the POSIX variant; the chosen class is
applied to the unchanged raw string. -/
def Path.new (host : HostOS) (raw : PyChars) : PyStr :=
  if is_obs_path raw then .path .objectStore raw
  else
    match host with
    | .windowsHost => .path .windows raw
    | .posixHost => .path .posix raw

/-- `Path.abspath` (base.py lines 101-103):
`self.path_class(self.path_module.abspath(self))`. -/
def Path.abspathOp (M : PathModule) (v : Variant) (s : PyChars) : PyStr :=
  .path v (M.abspath s)

/-- `Path.normcase` (base.py lines 105-107). -/
def Path.normcaseOp (M : PathModule) (v : Variant) (s : PyChars) : PyStr :=
  .path v (M.normcase s)

/-- `Path.normpath` (base.py lines 109-111). -/
def Path.normpathOp (M : PathModule) (v : Variant) (s : PyChars) : PyStr :=
  .path v (M.normpath s)

/-- `Path.realpath` (base.py lines 113-115). -/
def Path.realpathOp (M : PathModule) (v : Variant) (s : PyChars) : PyStr :=
  .path v (M.realpath s)

/-- `Path.expanduser` (base.py lines 117-119). -/
def Path.expanduserOp (M : PathModule) (v : Variant) (s : PyChars) : PyStr :=
  .path v (M.expanduser s)

/-- `Path.expandvars` (base.py lines 121-123). -/
def Path.expandvarsOp (M : PathModule) (v : Variant) (s : PyChars) : PyStr :=
  .path v (M.expandvars s)

/-- `Path.dirname` (base.py lines 125-127). -/
def Path.dirnameOp (M : PathModule) (v : Variant) (s : PyChars) : PyStr :=
  .path v (M.dirname s)

/-- `Path.basename` (base.py lines 129-131). -/
def Path.basenameOp (M : PathModule) (v : Variant) (s : PyChars) : PyStr :=
  .path v (M.basename s)

/-- `Path.expand` (base.py lines 133-140):
`self.expandvars().expanduser().normpath()` — each step a `Path` method (so
each intermediate is rewrapped as the same variant). -/
def Path.expandOp (M : PathModule) (v : Variant) (s : PyChars) : PyStr :=
  Path.normpathOp M v
    (Path.expanduserOp M v (Path.expandvarsOp M v s).str).str

/-- `Path.splitpath` (base.py lines 150-158):
`parent, child = self.path_module.split(self);
return self.path_class(parent), child` — only the first component is
rewrapped; `child` is the plain string the path module returned. -/
def Path.splitpathOp (M : PathModule) (v : Variant) (s : PyChars) :
    PyStr × PyStr :=
  (.path v (M.split s).1, .plain (M.split s).2)

/-- `Path.splitext` (base.py lines 160-173): only the filename component
is rewrapped; the extension stays a plain string. -/
def Path.splitextOp (M : PathModule) (v : Variant) (s : PyChars) :
    PyStr × PyStr :=
  (.path v (M.splitext s).1, .plain (M.splitext s).2)

/-- `Path.splitdrive` (base.py lines 175-185): only the drive component is
rewrapped; the rest stays a plain string. -/
def Path.splitdriveOp (M : PathModule) (v : Variant) (s : PyChars) :
    PyStr × PyStr :=
  (.path v (M.splitdrive s).1, .plain (M.splitdrive s).2)

/-- `os.path.join(first, *others)` iterates the two-operand join over the
remaining components (the loop in the reference `posixpath.join`). -/
def joinMany (M : PathModule) (s : PyChars) (others : List PyChars) : PyChars :=
  others.foldl M.join2 s

/-- `Path.joinpath` (base.py lines 187-195):
`self.path_class(self.path_module.join(self, *others))`. -/
def Path.joinpathOp (M : PathModule) (v : Variant) (s : PyChars)
    (others : List PyChars) : PyStr :=
  .path v (joinMany M s others)

/-- Local filesystem contents: the sets (as lists) of existing file paths
and existing directory paths. -/
structure FS where
  files : List PyChars
  dirs : List PyChars
deriving DecidableEq

/-- Errors surfaced by the modelled OS calls.  `notFoundError` models the
native file-not-found condition, which the spec's error taxonomy (section
7) names `NotFoundError` for local paths (section 4.4: "fails with the
native not-found condition surfaced unchanged"). -/
inductive OSErr
  | notFoundError
  | isADirectoryError
  | notADirectoryError
deriving DecidableEq

/-- `os.remove`: deletes the single file entry equal to `p`; raises
is-a-directory on a directory and file-not-found when `p` is absent. -/
def os_remove (p : PyChars) (fs : FS) : Except OSErr FS :=
  if p ∈ fs.files then .ok ⟨fs.files.filter (fun q => q != p), fs.dirs⟩
  else if p ∈ fs.dirs then .error .isADirectoryError
  else .error .notFoundError

/-- `FileSystemPath.remove` (base.py lines 331-334): `os.remove(self);
return self` — the same `Path` value is handed back on success. -/
def FileSystemPath.removeOp (self : PyStr) (fs : FS) :
    Except OSErr (PyStr × FS) :=
  match os_remove self.str fs with
  | .ok fs' => .ok (self, fs')
  | .error e => .error e

/-- Whether `q` lies strictly under directory path `p`. -/
def isUnderL (p q : PyChars) : Bool := List.isPrefixOf (p ++ ['/']) q

/-- `shutil.rmtree` with default arguments (`ignore_errors=False`):
recursively deletes an existing directory and everything under it, raises
not-a-directory on a file, and raises file-not-found when the path is
absent. -/
def shutil_rmtree (p : PyChars) (fs : FS) : Except OSErr FS :=
  if p ∈ fs.dirs then
    .ok ⟨fs.files.filter (fun q => !isUnderL p q),
         fs.dirs.filter (fun q => !isUnderL p q && q != p)⟩
  else if p ∈ fs.files then .error .notADirectoryError
  else .error .notFoundError

/-- `FileSystemPath.rmtree` (base.py line 336): the bare assignment
`rmtree = shutil.rmtree`, so `p.rmtree()` is `shutil.rmtree(p)` with
default arguments. -/
def FileSystemPath.rmtreeOp (self : PyStr) (fs : FS) : Except OSErr FS :=
  shutil_rmtree self.str fs

/-- Process-wide OS state: filesystem contents plus the current working
directory (the one global mutable resource, spec section 5). -/
structure OSState where
  fs : FS
  cwd : PyChars
deriving DecidableEq

/-- `os.chdir`, modelled as updating the process-wide working directory. -/
def os_chdir (p : PyChars) (st : OSState) : OSState := { st with cwd := p }

/-- `FileSystemPath.__enter__` (base.py lines 269-272):
`self._old_dir = os.getcwd(); os.chdir(self); return self` — yields the
changed state together with the saved previous directory. -/
def FileSystemPath.enterOp (self : PyStr) (st : OSState) :
    OSState × PyChars :=
  (os_chdir self.str st, st.cwd)

/-- `FileSystemPath.__exit__` (base.py lines 274-275):
`os.chdir(self._old_dir)`. -/
def FileSystemPath.exitOp (oldDir : PyChars) (st : OSState) : OSState :=
  os_chdir oldDir st

/-- Python's `with` statement over the directory context manager: run
`__enter__`, run the body (which may end in an exception, `some e`, and may
itself mutate the state arbitrarily), then run `__exit__` on both the
normal and the exceptional paths, re-raising the body's exception since
`__exit__` returns a falsy value. -/
def runWithDir {E : Type} (self : PyStr) (body : OSState → Option E × OSState)
    (st : OSState) : Option E × OSState :=
  let p := FileSystemPath.enterOp self st
  match body p.1 with
  | (none, st2) => (none, FileSystemPath.exitOp p.2 st2)
  | (some e, st2) => (some e, FileSystemPath.exitOp p.2 st2)

/-! ## The POSIX path module

Embedding of the pure string functions of `posixpath` (the external
path-module collaborator the local-POSIX variant delegates to), translated
from the reference Python implementation. -/

/-- Split a character list into the `'/'`-separated components, exactly as
Python's `path.split('/')` does (empty components are kept). -/
def consHead (c : Char) : List PyChars → List PyChars
  | [] => [[c]]
  | h :: t => (c :: h) :: t

/-- See `consHead`: `splitSl p` is Python's `p.split('/')`. -/
def splitSl : PyChars → List PyChars
  | [] => [[]]
  | c :: cs => if c = '/' then [] :: splitSl cs else consHead c (splitSl cs)

/-- The `initial_slashes` value of `posixpath.normpath`: `0` when the path
is relative, `2` when it starts with exactly two slashes, `1` otherwise. -/
def initSlashes : PyChars → Nat
  | [] => 0
  | a :: q =>
    if a = '/' then
      match q with
      | [] => 1
      | b :: r =>
        if b = '/' then
          match r with
          | [] => 2
          | c :: _ => if c = '/' then 1 else 2
        else 1
    else 0

/-- The component-resolution loop of `posixpath.normpath`, with the
accumulator kept in reverse order: empty and `'.'` components are skipped;
`'..'` is kept when the path is relative and nothing was accumulated or
when the accumulator ends in `'..'`, pops an accumulated component
otherwise, and is dropped at the root of an absolute path. -/
def resolveAcc (ab : Bool) (acc : List PyChars) : List PyChars → List PyChars
  | [] => acc
  | c :: rest =>
    if c = [] ∨ c = ['.'] then resolveAcc ab acc rest
    else if c = ['.', '.'] then
      match acc with
      | [] => if ab then resolveAcc ab [] rest else resolveAcc ab [c] rest
      | a :: as => if a = ['.', '.'] then resolveAcc ab (c :: acc) rest
                   else resolveAcc ab as rest
    else resolveAcc ab (c :: acc) rest

/-- The resolved component list of `posixpath.normpath`, in order. -/
def resolveComps (ab : Bool) (l : List PyChars) : List PyChars :=
  (resolveAcc ab [] l).reverse

/-- Python's `'/'.join(comps)`. -/
def joinComps : List PyChars → PyChars
  | [] => []
  | [c] => c
  | c :: d :: rest => c ++ '/' :: joinComps (d :: rest)

/-- `posixpath.normpath`: empty path is `'.'`; otherwise split on `'/'`,
resolve `''`/`'.'`/`'..'` components, rejoin with `'/'`, restore the
leading slashes, and fall back to `'.'` for an empty result. -/
def normpathL (p : PyChars) : PyChars :=
  if p = [] then ['.']
  else
    if List.replicate (initSlashes p) '/' ++
        joinComps (resolveComps (initSlashes p != 0) (splitSl p)) = [] then ['.']
    else
      List.replicate (initSlashes p) '/' ++
        joinComps (resolveComps (initSlashes p != 0) (splitSl p))

/-- `posixpath.split`: split after the last `'/'`; the head keeps its
trailing slashes only when it consists solely of slashes. -/
def splitL (p : PyChars) : PyChars × PyChars :=
  let rp := p.reverse
  let t := rp.takeWhile (fun c => c != '/')
  let hr := rp.dropWhile (fun c => c != '/')
  let head :=
    if hr.any (fun c => c != '/') then (hr.dropWhile (fun c => c == '/')).reverse
    else hr.reverse
  (head, t.reverse)

/-- `posixpath.join` for two operands: an absolute second operand replaces
the first; otherwise a `'/'` is inserted unless the first operand is empty
or already ends with `'/'`. -/
def join2L (a b : PyChars) : PyChars :=
  if b.head? = some '/' then b
  else if a = [] ∨ a.getLast? = some '/' then a ++ b
  else a ++ '/' :: b

/-- `posixpath.splitext` (via `genericpath._splitext`): split at the last
`'.'` when it lies after the last `'/'` and the basename up to that dot is
not made of dots only; otherwise the extension is empty. -/
def splitextL (p : PyChars) : PyChars × PyChars :=
  let rp := p.reverse
  let base := rp.takeWhile (fun c => c != '/')
  let extR := base.takeWhile (fun c => c != '.')
  if base.contains '.' then
    let nameR := base.drop (extR.length + 1)
    if nameR.any (fun c => c != '.') then
      ((rp.drop (extR.length + 1)).reverse, (extR ++ ['.']).reverse)
    else (p, [])
  else (p, [])

/-- Word characters of the `\w` class matched by the `expandvars` variable
pattern (ASCII letters, digits and underscore). -/
def isWordChar (c : Char) : Bool := c.isAlphanum || c == '_'

/-- Environment lookup (`os.environ`), modelled as an association list. -/
def lookupEnv (env : List (PyChars × PyChars)) (name : PyChars) :
    Option PyChars :=
  match env.find? (fun kv => kv.1 == name) with
  | some kv => some kv.2
  | none => none

/-- The opening curly-brace character. -/
def lbrace : Char := Char.ofNat 123

/-- The closing curly-brace character. -/
def rbrace : Char := Char.ofNat 125

/-- The scanning loop of `posixpath.expandvars`: a `$name` or
`$`-brace-`name`-brace occurrence whose name is in the environment is
replaced by the value (which is not rescanned); an occurrence whose name is
unknown, and any `$` that begins no variable reference, are kept verbatim;
scanning resumes after the occurrence. -/
def expandvarsGo (env : List (PyChars × PyChars)) : PyChars → PyChars
  | [] => []
  | c :: rest =>
    if c = '$' then
      if rest.head? = some lbrace then
        if (rest.drop 1).contains rbrace then
          let inner := (rest.drop 1).takeWhile (fun d => d != rbrace)
          let after := (rest.drop 1).drop (inner.length + 1)
          match lookupEnv env inner with
          | some v => v ++ expandvarsGo env after
          | none => '$' :: lbrace :: (inner ++ rbrace :: expandvarsGo env after)
        else '$' :: expandvarsGo env rest
      else
        let name := rest.takeWhile isWordChar
        if name.isEmpty then '$' :: expandvarsGo env rest
        else
          let after := rest.drop name.length
          match lookupEnv env name with
          | some v => v ++ expandvarsGo env after
          | none => '$' :: (name ++ expandvarsGo env after)
    else c :: expandvarsGo env rest
termination_by l => l.length
decreasing_by all_goals simp [List.length_drop] <;> omega

/-- `posixpath.expandvars`: paths containing no `'$'` are returned
unchanged by the initial guard; otherwise the scanning loop runs. -/
def expandvarsL (env : List (PyChars × PyChars)) (p : PyChars) : PyChars :=
  if p.contains '$' then expandvarsGo env p else p

/-- `posixpath.expanduser`: paths not starting with `'~'` are unchanged.
For `'~'` the home directory comes from the `HOME` environment variable or
the password database; for `'~user'` it comes from the password database,
with an unknown user leaving the path unchanged.  The home directory is
stripped of trailing slashes, the remainder of the path is appended, and an
empty result becomes `'/'`. -/
def expanduserL (envHome : Option PyChars) (pwuidDir : PyChars)
    (pwnamDir : PyChars → Option PyChars) (p : PyChars) : PyChars :=
  if p.head? ≠ some '~' then p
  else
    let rest := p.drop 1
    let user := rest.takeWhile (fun c => c != '/')
    let tail := rest.drop user.length
    let uh? : Option PyChars :=
      if user = [] then some (envHome.getD pwuidDir) else pwnamDir user
    match uh? with
    | none => p
    | some uh =>
      let uh' := (uh.reverse.dropWhile (fun c => c == '/')).reverse
      if uh' ++ tail = [] then ['/'] else uh' ++ tail

/-- The external inputs the POSIX path module reads: the environment, the
`HOME` variable, the password-database home directories, the process
working directory (for `abspath`), and the OS-level symlink resolution
that `realpath` performs (an external collaborator, taken as a
parameter). -/
structure PosixCtx where
  env : List (PyChars × PyChars)
  envHome : Option PyChars
  pwuidDir : PyChars
  pwnamDir : PyChars → Option PyChars
  cwd : PyChars
  realfn : PyChars → PyChars

/-- The `posixpath` module as a `PathModule` record.  `abspath` is
`normpath(join(cwd, path))` for relative paths and `normpath(path)` for
absolute ones; `normcase` is the identity on POSIX; `dirname` and
`basename` are the two halves of `split`. -/
def posixPathModule (ctx : PosixCtx) : PathModule where
  join2 := join2L
  split := splitL
  splitext := splitextL
  splitdrive := fun s => ([], s)
  normpath := normpathL
  abspath := fun s =>
    if s.head? = some '/' then normpathL s else normpathL (join2L ctx.cwd s)
  realpath := ctx.realfn
  normcase := fun s => s
  expanduser := expanduserL ctx.envHome ctx.pwuidDir ctx.pwnamDir
  expandvars := expandvarsL ctx.env
  dirname := fun s => (splitL s).1
  basename := fun s => (splitL s).2

/-- A concrete POSIX path-module instance: empty environment, no home
directory, empty working directory, identity symlink resolution. -/
def posixPM0 : PathModule :=
  posixPathModule ⟨[], none, [], fun _ => none, [], fun s => s⟩

/-- A concrete POSIX context whose `HOME` variable is `/home/u`. -/
def posixCtx1 : PosixCtx :=
  ⟨[], some "/home/u".toList, [], fun _ => none, [], fun s => s⟩

/-- The POSIX path module over `posixCtx1`. -/
def posixPM1 : PathModule := posixPathModule posixCtx1

/-! ## Theorems -/

/-- C1: for every pair of Path values whose variants use different path
modules, the join operator `/` and the concatenation `+` both fail with the
TypeError-equivalent (`IncompatiblePathError`): both operands return
`NotImplemented` from `__div__`/`__rdiv__` (`__add__`/`__radd__`), so
Python raises `TypeError`; no joined Path is ever returned. -/
theorem c1_cross_module_div_add_raise_typeerror
    (impl : ModId → PathModule) (v1 v2 : Variant) (s1 s2 : PyChars)
    (h : v1.modId ≠ v2.modId) :
    pyDiv impl (.path v1 s1) (.path v2 s2) = .error .typeError ∧
    pyAdd (.path v1 s1) (.path v2 s2) = .error .typeError := by
  have h2 : v2.modId ≠ v1.modId := fun e => h e.symm
  constructor
  · simp [pyDiv, tryDiv, tryRDiv, hasIncompatiblePathModule, bne_iff_ne, h, h2]
  · simp [pyAdd, tryAdd, tryRAdd, hasIncompatiblePathModule, bne_iff_ne, h, h2]

/-- C1 witness: a local-POSIX path and a local-Windows path use different
path modules, and `/` and `+` both fail on the pair. -/
theorem c1_witness :
    Variant.posix.modId ≠ Variant.windows.modId ∧
    (pyDiv (fun _ => posixPM0) (.path .posix ['a']) (.path .windows ['b']) =
        .error .typeError ∧
     pyAdd (.path .posix ['a']) (.path .windows ['b']) = .error .typeError) :=
  ⟨by decide,
   c1_cross_module_div_add_raise_typeerror (fun _ => posixPM0) .posix .windows
     ['a'] ['b'] (by decide)⟩

/-- C2: a raw string with an object-store scheme prefix constructs the
object-store variant on every host OS; a raw string without such a prefix
constructs the local-POSIX variant on a POSIX-convention host and the
local-Windows variant on a Windows-convention host. -/
theorem c2_factory_variant_selection (raw : PyChars) :
    (∀ host, is_obs_path raw = true →
      Path.new host raw = .path .objectStore raw) ∧
    (is_obs_path raw = false →
      Path.new .posixHost raw = .path .posix raw ∧
      Path.new .windowsHost raw = .path .windows raw) := by
  constructor
  · intro host h; simp [Path.new, h]
  · intro h; constructor <;> simp [Path.new, h]

/-- C2 witness: `swift://AUTH_x/cont/obj` has the scheme prefix and yields
the object-store variant even on a Windows host; `/a/b` has none and yields
the matching local variant on each host. -/
theorem c2_witness :
    (is_obs_path "swift://AUTH_x/cont/obj".toList = true ∧
     Path.new .windowsHost "swift://AUTH_x/cont/obj".toList =
       .path .objectStore "swift://AUTH_x/cont/obj".toList) ∧
    (is_obs_path "/a/b".toList = false ∧
     Path.new .posixHost "/a/b".toList = .path .posix "/a/b".toList ∧
     Path.new .windowsHost "/a/b".toList = .path .windows "/a/b".toList) :=
  ⟨⟨by decide, (c2_factory_variant_selection _).1 .windowsHost (by decide)⟩,
   ⟨by decide, (c2_factory_variant_selection _).2 (by decide)⟩⟩

/-- C3: `remove()` on a non-existent local path fails with the not-found
error, and on an existing file deletes exactly that one entry: the
directories are untouched and a path remains among the files iff it was
there before and differs from the removed one. -/
theorem c3_remove_semantics (self : PyStr) (fs : FS) :
    (self.str ∉ fs.files → self.str ∉ fs.dirs →
      FileSystemPath.removeOp self fs = .error .notFoundError) ∧
    (self.str ∈ fs.files →
      ∃ fs', FileSystemPath.removeOp self fs = .ok (self, fs') ∧
        fs'.dirs = fs.dirs ∧
        ∀ q, q ∈ fs'.files ↔ (q ∈ fs.files ∧ q ≠ self.str)) := by
  constructor
  · intro hf hd
    simp [FileSystemPath.removeOp, os_remove, hf, hd]
  · intro hf
    refine ⟨⟨fs.files.filter (fun q => q != self.str), fs.dirs⟩, ?_, rfl, ?_⟩
    · simp [FileSystemPath.removeOp, os_remove, hf]
    · intro q; simp [List.mem_filter, bne_iff_ne]

/-- C3 witness: removing the absent file `f` from an empty filesystem
fails with the not-found error; removing it when it is the only file
deletes exactly it. -/
theorem c3_witness :
    FileSystemPath.removeOp (.path .posix ['f']) ⟨[], []⟩ =
      .error .notFoundError ∧
    ∃ fs', FileSystemPath.removeOp (.path .posix ['f']) ⟨[['f']], []⟩ =
        .ok (.path .posix ['f'], fs') ∧
      fs'.dirs = (⟨[['f']], []⟩ : FS).dirs ∧
      ∀ q, q ∈ fs'.files ↔
        (q ∈ (⟨[['f']], []⟩ : FS).files ∧ q ≠ (PyStr.path .posix ['f']).str) :=
  ⟨(c3_remove_semantics (.path .posix ['f']) ⟨[], []⟩).1 (by decide) (by decide),
   (c3_remove_semantics (.path .posix ['f']) ⟨[['f']], []⟩).2 (by decide)⟩

/-- C4 counterexample: the claim says `rmtree()` on a non-existent path
succeeds without error, but `rmtree = shutil.rmtree` (base.py line 336)
raises the native not-found error: on an empty filesystem, rmtree of `/x`
errors instead of succeeding. -/
theorem c4_counterexample :
    FileSystemPath.rmtreeOp (.path .posix "/x".toList) ⟨[], []⟩ =
      .error .notFoundError := rfl

/-- C4 amended: `rmtree()` on a non-existent local path fails with the
native not-found error (it is not idempotent with respect to an absent
target). -/
theorem c4_rmtree_absent_raises (self : PyStr) (fs : FS)
    (hd : self.str ∉ fs.dirs) (hf : self.str ∉ fs.files) :
    FileSystemPath.rmtreeOp self fs = .error .notFoundError := by
  simp [FileSystemPath.rmtreeOp, shutil_rmtree, hd, hf]

/-- C4 witness: rmtree of the absent path `/x` on an empty filesystem
raises the not-found error. -/
theorem c4_witness :
    FileSystemPath.rmtreeOp (.path .posix "/x".toList) ⟨[], []⟩ =
      .error .notFoundError :=
  c4_rmtree_absent_raises (.path .posix "/x".toList) ⟨[], []⟩
    (by decide) (by decide)

/-- C5: entering a local path as a directory-context scope runs the body
on a state whose working directory is the path, and the previous working
directory is restored on every exit path — the final working directory
equals the original one whether the body finished normally or raised, the
body's exception (if any) is re-raised, and the body's filesystem effects
are kept. -/
theorem c5_dirctx_restores_cwd {E : Type} (self : PyStr)
    (body : OSState → Option E × OSState) (st : OSState) :
    (runWithDir self body st).2.cwd = st.cwd ∧
    (runWithDir self body st).1 = (body (os_chdir self.str st)).1 ∧
    (runWithDir self body st).2.fs = (body (os_chdir self.str st)).2.fs := by
  unfold runWithDir FileSystemPath.enterOp FileSystemPath.exitOp os_chdir
  rcases hb : body { fs := st.fs, cwd := self.str } with ⟨r, st2⟩
  cases r <;> simp [hb]

/-- C8 counterexample: the claim says every component of the pair returned
by the splitting operations is rewrapped as a Path, but `splitpath` returns
its second component as the plain string the path module produced
(base.py line 158): at `/a/b` the child component is not a Path. -/
theorem c8_counterexample :
    PyStr.isPathOfV .posix
      ((Path.splitpathOp posixPM0 .posix "/a/b".toList).2) = false := rfl

/-- C8 amended: every non-splitting pure string-algebra operation returns
its result rewrapped as a Path of the same variant, and the splitting
operations rewrap their first component only — the second component of
`splitpath`, `splitext` and `splitdrive` is the plain (unwrapped) string
returned by the path module. -/
theorem c8_rewrap_same_variant (M : PathModule) (v : Variant) (s : PyChars)
    (others : List PyChars) :
    PyStr.isPathOfV v (Path.dirnameOp M v s) = true ∧
    PyStr.isPathOfV v (Path.basenameOp M v s) = true ∧
    PyStr.isPathOfV v (Path.normpathOp M v s) = true ∧
    PyStr.isPathOfV v (Path.abspathOp M v s) = true ∧
    PyStr.isPathOfV v (Path.realpathOp M v s) = true ∧
    PyStr.isPathOfV v (Path.normcaseOp M v s) = true ∧
    PyStr.isPathOfV v (Path.expanduserOp M v s) = true ∧
    PyStr.isPathOfV v (Path.expandvarsOp M v s) = true ∧
    PyStr.isPathOfV v (Path.joinpathOp M v s others) = true ∧
    PyStr.isPathOfV v (Path.splitpathOp M v s).1 = true ∧
    PyStr.isPathOfV v (Path.splitextOp M v s).1 = true ∧
    PyStr.isPathOfV v (Path.splitdriveOp M v s).1 = true ∧
    (Path.splitpathOp M v s).2 = .plain (M.split s).2 ∧
    (Path.splitextOp M v s).2 = .plain (M.splitext s).2 ∧
    (Path.splitdriveOp M v s).2 = .plain (M.splitdrive s).2 := by
  simp [PyStr.isPathOfV, Path.dirnameOp, Path.basenameOp, Path.normpathOp,
    Path.abspathOp, Path.realpathOp, Path.normcaseOp, Path.expanduserOp,
    Path.expandvarsOp, Path.joinpathOp, Path.splitpathOp, Path.splitextOp,
    Path.splitdriveOp]

/-- C9: the incompatibility check applies only to Path operands — for every
Path and every plain string, whatever its content (an object-store scheme
string included), `/` joins and `+` concatenates, returning a Path of the
left operand's variant. -/
theorem c9_plain_string_operand_succeeds
    (impl : ModId → PathModule) (v : Variant) (s t : PyChars) :
    pyDiv impl (.path v s) (.plain t) =
      .ok (.path v ((impl v.modId).join2 s t)) ∧
    pyAdd (.path v s) (.plain t) = .ok (.path v (s ++ t)) := by
  constructor <;>
    simp [pyDiv, pyAdd, tryDiv, tryAdd, hasIncompatiblePathModule, PyStr.str]

/-- C10: `remove()` on an existing file returns the very same Path value
(`return self`, base.py line 334), enabling call chaining. -/
theorem c10_remove_returns_self (self : PyStr) (fs : FS)
    (hf : self.str ∈ fs.files) :
    ∃ fs', FileSystemPath.removeOp self fs = .ok (self, fs') :=
  ⟨⟨fs.files.filter (fun q => q != self.str), fs.dirs⟩,
   by simp [FileSystemPath.removeOp, os_remove, hf]⟩

/-- C10 witness: removing the existing file `f` hands back exactly the
same Path value. -/
theorem c10_witness :
    ∃ fs', FileSystemPath.removeOp (.path .posix ['f']) ⟨[['f']], []⟩ =
      .ok (.path .posix ['f'], fs') :=
  c10_remove_returns_self (.path .posix ['f']) ⟨[['f']], []⟩ (by decide)

/-- C6 counterexample: the claim says `dirname() + separator + basename()`
equals the normalized form, but at `p = "a"` the left side is `/a` while
the normalized form is `a`. -/
theorem c6_counterexample :
    (Path.dirnameOp posixPM0 .posix "a".toList).str ++ '/' ::
        (Path.basenameOp posixPM0 .posix "a".toList).str ≠
      (Path.normpathOp posixPM0 .posix "a".toList).str := by decide

/-- C7 counterexample: expand is not idempotent — at `p = "./~"` (with
`HOME=/home/u`) the first expansion normalizes to `~`, and the second
expansion then expands that to the home directory. -/
theorem c7_counterexample :
    (Path.expandOp posixPM1 .posix
        (Path.expandOp posixPM1 .posix "./~".toList).str).str ≠
      (Path.expandOp posixPM1 .posix "./~".toList).str := by decide

/-! ### Lemmas about the embedded `posixpath` string functions -/

theorem splitSl_ne_nil (p : PyChars) : splitSl p ≠ [] := by
  induction p with
  | nil => simp [splitSl]
  | cons c cs ih =>
    simp only [splitSl]
    split
    · simp
    · rcases h : splitSl cs with _ | ⟨h1, t1⟩
      · exact absurd h ih
      · simp [consHead]

theorem consHead_append (c : Char) (l l' : List PyChars) (h : l ≠ []) :
    consHead c (l ++ l') = consHead c l ++ l' := by
  rcases l with _ | ⟨x, xs⟩
  · exact absurd rfl h
  · simp [consHead]

theorem splitSl_append_slash (a b : PyChars) :
    splitSl (a ++ '/' :: b) = splitSl a ++ splitSl b := by
  induction a with
  | nil => simp [splitSl]
  | cons c cs ih =>
    by_cases hc : c = '/'
    · simp [splitSl, hc, ih]
    · have e1 : splitSl (c :: (cs ++ '/' :: b)) =
          consHead c (splitSl (cs ++ '/' :: b)) := by simp [splitSl, hc]
      have e2 : splitSl (c :: cs) = consHead c (splitSl cs) := by
        simp [splitSl, hc]
      rw [List.cons_append, e1, e2, ih,
        consHead_append c (splitSl cs) (splitSl b) (splitSl_ne_nil cs)]

theorem splitSl_no_slash (p : PyChars) (h : ∀ c ∈ p, c ≠ '/') :
    splitSl p = [p] := by
  induction p with
  | nil => simp [splitSl]
  | cons c cs ih =>
    have hc : c ≠ '/' := h c (List.mem_cons_self _ _)
    have hrest := ih (fun d hd => h d (List.mem_cons_of_mem _ hd))
    simp [splitSl, hc, hrest, consHead]

theorem splitSl_replicate_slash (k : Nat) (b : PyChars) :
    splitSl (List.replicate k '/' ++ b) = List.replicate k [] ++ splitSl b := by
  induction k with
  | zero => simp
  | succ k ih => simp [List.replicate_succ, splitSl, ih]

theorem splitSl_mem_no_slash (p : PyChars) :
    ∀ c ∈ splitSl p, '/' ∉ c := by
  induction p with
  | nil =>
    intro c hc
    simp [splitSl] at hc
    simp [hc]
  | cons a as ih =>
    intro c hc
    by_cases ha : a = '/'
    · simp only [splitSl, ha, if_pos] at hc
      rcases List.mem_cons.mp hc with hc | hc
      · simp [hc]
      · exact ih c hc
    · rcases h : splitSl as with _ | ⟨h1, t1⟩
      · exact absurd h (splitSl_ne_nil as)
      · simp only [splitSl, ha, if_neg, h, consHead] at hc
        rcases List.mem_cons.mp hc with hc | hc
        · subst hc
          have hh1 : '/' ∉ h1 := ih h1 (by rw [h]; exact List.mem_cons_self _ _)
          simp [List.mem_cons, ha, hh1]
          intro hcon
          exact ha hcon.symm
        · exact ih c (by rw [h]; exact List.mem_cons_of_mem _ hc)

theorem resolveAcc_append (ab : Bool) (l : List PyChars) :
    ∀ (l' acc : List PyChars),
      resolveAcc ab acc (l ++ l') = resolveAcc ab (resolveAcc ab acc l) l' := by
  induction l with
  | nil => intro l' acc; rfl
  | cons c rest ih =>
    intro l' acc
    by_cases hce : c = [] ∨ c = ['.']
    · simp [resolveAcc, hce, ih]
    · by_cases hdd : c = ['.', '.']
      · subst hdd
        rcases acc with _ | ⟨a, as⟩
        · cases ab <;> simp [resolveAcc, hce, ih]
        · by_cases had : a = ['.', '.'] <;> simp [resolveAcc, hce, had, ih]
      · simp [resolveAcc, hce, hdd, ih]

theorem resolveAcc_empties (ab : Bool) (n : Nat) :
    ∀ (acc : List PyChars) (l : List PyChars),
      resolveAcc ab acc (List.replicate n [] ++ l) = resolveAcc ab acc l := by
  induction n with
  | zero => intro acc l; simp
  | succ n ih =>
    intro acc l
    simp only [List.replicate_succ, List.cons_append]
    rw [show resolveAcc ab acc ([] :: (List.replicate n [] ++ l)) =
        resolveAcc ab acc (List.replicate n [] ++ l) from by simp [resolveAcc]]
    exact ih acc l

theorem initSlashes_le_two (p : PyChars) : initSlashes p ≤ 2 := by
  rcases p with _ | ⟨a, _ | ⟨b, _ | ⟨c, q⟩⟩⟩ <;>
    simp only [initSlashes] <;> (first | omega | (split_ifs <;> omega))

theorem initSlashes_congr (P X Y : PyChars) (hne : P ≠ [])
    (hl : P.getLast? ≠ some '/') :
    initSlashes (P ++ X) = initSlashes (P ++ Y) := by
  rcases P with _ | ⟨a, _ | ⟨b, _ | ⟨c, rest⟩⟩⟩
  · exact absurd rfl hne
  · have ha : a ≠ '/' := by simpa using hl
    simp [initSlashes, ha]
  · have hb : b ≠ '/' := by simpa using hl
    by_cases haa : a = '/' <;> simp [initSlashes, haa, hb]
  · simp [initSlashes]

theorem dropWhile_head_false {α : Type} (pb : α → Bool) (l : List α) :
    ∀ (x : α) (xs : List α), List.dropWhile pb l = x :: xs → pb x = false := by
  induction l with
  | nil => intro x xs h; simp at h
  | cons a as ih =>
    intro x xs h
    rw [List.dropWhile_cons] at h
    by_cases hpa : pb a = true
    · rw [if_pos hpa] at h
      exact ih x xs h
    · rw [if_neg hpa] at h
      have hax : a = x := (List.cons.injEq _ _ _ _ ▸ h).1
      rw [← hax]
      exact Bool.not_eq_true _ ▸ hpa

theorem resolveAcc_good (ab : Bool) :
    ∀ l : List PyChars, (∀ c ∈ l, '/' ∉ c) →
    ∀ (acc N : List PyChars) (m : Nat),
      acc = N ++ List.replicate m ['.', '.'] →
      ['.', '.'] ∉ N →
      (ab = true → m = 0) →
      (∀ c ∈ acc, c ≠ [] ∧ c ≠ ['.'] ∧ '/' ∉ c) →
      ∃ N' m', resolveAcc ab acc l = N' ++ List.replicate m' ['.', '.'] ∧
        ['.', '.'] ∉ N' ∧ (ab = true → m' = 0) ∧
        ∀ c ∈ resolveAcc ab acc l, c ≠ [] ∧ c ≠ ['.'] ∧ '/' ∉ c := by
  intro l
  induction l with
  | nil =>
    intro _ acc N m hacc hN hab helts
    exact ⟨N, m, hacc, hN, hab, helts⟩
  | cons c rest ih =>
    intro hl acc N m hacc hN hab helts
    have hlr : ∀ d ∈ rest, '/' ∉ d := fun d hd => hl d (List.mem_cons_of_mem _ hd)
    have hcsl : '/' ∉ c := hl c (List.mem_cons_self _ _)
    by_cases hce : c = [] ∨ c = ['.']
    · rw [show resolveAcc ab acc (c :: rest) = resolveAcc ab acc rest from by
        simp [resolveAcc, hce]]
      exact ih hlr acc N m hacc hN hab helts
    · by_cases hdd : c = ['.', '.']
      · subst hdd
        rcases acc with _ | ⟨a, as⟩
        · by_cases hab2 : ab = true
          · subst hab2
            rw [show resolveAcc true [] (['.', '.'] :: rest) =
                resolveAcc true [] rest from by simp [resolveAcc, hce]]
            exact ih hlr [] [] 0 (by simp) (by simp) (fun _ => rfl) (by simp)
          · have hab2' : ab = false := by revert hab2; cases ab <;> simp
            subst hab2'
            rw [show resolveAcc false [] (['.', '.'] :: rest) =
                resolveAcc false [['.', '.']] rest from by simp [resolveAcc, hce]]
            refine ih hlr [['.', '.']] [] 1 (by simp) (by simp) (by simp) ?_
            intro d hd
            simp only [List.mem_singleton] at hd
            subst hd
            exact ⟨by decide, by decide, by decide⟩
        · by_cases had : a = ['.', '.']
          · have hNnil : N = [] := by
              rcases N with _ | ⟨n, N'⟩
              · rfl
              · exfalso
                have hconv : a :: as = n :: (N' ++ List.replicate m ['.', '.']) := by
                  simpa using hacc
                obtain ⟨han, _⟩ := List.cons_eq_cons.mp hconv
                apply hN
                rw [← had, han]
                exact List.mem_cons_self _ _
            subst hNnil
            simp only [List.nil_append] at hacc
            obtain ⟨m', rfl⟩ : ∃ m', m = m' + 1 := by
              rcases m with _ | m'
              · simp at hacc
              · exact ⟨m', rfl⟩
            have habf : ab = false := by
              by_cases habv : ab = true
              · exact absurd (hab habv) (by omega)
              · revert habv; cases ab <;> simp
            subst habf
            rw [show resolveAcc false (a :: as) (['.', '.'] :: rest) =
                resolveAcc false (['.', '.'] :: a :: as) rest from by
              simp [resolveAcc, hce, had]]
            refine ih hlr (['.', '.'] :: a :: as) [] (m' + 2) ?_ (by simp)
              (by simp) ?_
            · rw [hacc, List.nil_append, ← List.replicate_succ]
            · intro d hd
              rcases List.mem_cons.mp hd with hd | hd
              · subst hd; exact ⟨by decide, by decide, by decide⟩
              · exact helts d hd
          · have hNne : N ≠ [] := by
              intro h
              subst h
              simp only [List.nil_append] at hacc
              rcases m with _ | m'
              · simp at hacc
              · rw [List.replicate_succ] at hacc
                exact had (List.cons_eq_cons.mp hacc).1
            rcases N with _ | ⟨n, N'⟩
            · exact absurd rfl hNne
            have hconv : a :: as = n :: (N' ++ List.replicate m ['.', '.']) := by
              simpa using hacc
            obtain ⟨han, has⟩ := List.cons_eq_cons.mp hconv
            rw [show resolveAcc ab (a :: as) (['.', '.'] :: rest) =
                resolveAcc ab as rest from by simp [resolveAcc, hce, had]]
            refine ih hlr as N' m has
              (fun hmem => hN (List.mem_cons_of_mem _ hmem)) hab ?_
            exact fun d hd => helts d (List.mem_cons_of_mem _ hd)
      · rw [show resolveAcc ab acc (c :: rest) = resolveAcc ab (c :: acc) rest from by
          simp [resolveAcc, hce, hdd]]
        have hc1 : c ≠ [] := fun h => hce (Or.inl h)
        have hc2 : c ≠ ['.'] := fun h => hce (Or.inr h)
        refine ih hlr (c :: acc) (c :: N) m (by rw [hacc]; rfl) ?_ hab ?_
        · intro hmem
          rcases List.mem_cons.mp hmem with h | h
          · exact hdd h.symm
          · exact hN h
        · intro d hd
          rcases List.mem_cons.mp hd with h | h
          · subst h; exact ⟨hc1, hc2, hcsl⟩
          · exact helts d h

theorem resolveAcc_normals (ab : Bool) :
    ∀ (N acc : List PyChars),
      (∀ c ∈ N, c ≠ [] ∧ c ≠ ['.'] ∧ c ≠ ['.', '.']) →
      resolveAcc ab acc N = N.reverse ++ acc := by
  intro N
  induction N with
  | nil => intro acc _; simp [resolveAcc]
  | cons c rest ih =>
    intro acc h
    have hc := h c (List.mem_cons_self _ _)
    have hce : ¬(c = [] ∨ c = ['.']) := by
      rintro (h1 | h1)
      · exact hc.1 h1
      · exact hc.2.1 h1
    rw [show resolveAcc ab acc (c :: rest) = resolveAcc ab (c :: acc) rest from by
      simp [resolveAcc, hce, hc.2.2]]
    rw [ih (c :: acc) (fun d hd => h d (List.mem_cons_of_mem _ hd))]
    simp

theorem resolveAcc_dds :
    ∀ (m j : Nat) (N : List PyChars),
      resolveAcc false (List.replicate j ['.', '.'])
          (List.replicate m ['.', '.'] ++ N) =
        resolveAcc false (List.replicate (m + j) ['.', '.']) N := by
  intro m
  induction m with
  | zero => intro j N; simp
  | succ m ih =>
    intro j N
    rw [List.replicate_succ, List.cons_append]
    have hstep : resolveAcc false (List.replicate j ['.', '.'])
        (['.', '.'] :: (List.replicate m ['.', '.'] ++ N)) =
        resolveAcc false (List.replicate (j + 1) ['.', '.'])
          (List.replicate m ['.', '.'] ++ N) := by
      rcases j with _ | j'
      · simp [resolveAcc]
      · rw [List.replicate_succ]
        simp [resolveAcc, ← List.replicate_succ]
    rw [hstep, ih (j + 1) N, show m + (j + 1) = m + 1 + j from by omega]

theorem resolveComps_shape (ab : Bool) (l : List PyChars)
    (hl : ∀ c ∈ l, '/' ∉ c) :
    (∀ c ∈ resolveComps ab l, c ≠ [] ∧ c ≠ ['.'] ∧ '/' ∉ c) ∧
    ∃ m N, resolveComps ab l = List.replicate m ['.', '.'] ++ N ∧
      ['.', '.'] ∉ N ∧ (ab = true → m = 0) := by
  obtain ⟨N', m', h1, h2, h3, h4⟩ :=
    resolveAcc_good ab l hl [] [] 0 (by simp) (by simp) (fun _ => rfl) (by simp)
  constructor
  · intro c hc
    exact h4 c (by simpa [resolveComps, List.mem_reverse] using hc)
  · refine ⟨m', N'.reverse, ?_, by simpa using h2, h3⟩
    simp [resolveComps, h1, List.reverse_append, List.reverse_replicate]

theorem resolveComps_fixed (ab : Bool) (cs : List PyChars)
    (helts : ∀ c ∈ cs, c ≠ [] ∧ c ≠ ['.'])
    (hshape : ∃ m N, cs = List.replicate m ['.', '.'] ++ N ∧
      ['.', '.'] ∉ N ∧ (ab = true → m = 0)) :
    resolveComps ab cs = cs := by
  obtain ⟨m, N, rfl, hddN, habm⟩ := hshape
  have hNelts : ∀ c ∈ N, c ≠ [] ∧ c ≠ ['.'] ∧ c ≠ ['.', '.'] := by
    intro c hc
    have := helts c (List.mem_append_right _ hc)
    exact ⟨this.1, this.2, fun h => hddN (h ▸ hc)⟩
  cases hab2 : ab with
  | true =>
    have hm0 : m = 0 := habm hab2
    subst hm0
    simp only [List.replicate, List.nil_append]
    rw [resolveComps, resolveAcc_normals true N [] hNelts]
    simp
  | false =>
    rw [resolveComps,
      show resolveAcc false [] (List.replicate m ['.', '.'] ++ N) =
        resolveAcc false (List.replicate (m + 0) ['.', '.']) N from by
        rw [← resolveAcc_dds m 0 N]; rfl,
      Nat.add_zero,
      resolveAcc_normals false N (List.replicate m ['.', '.']) hNelts]
    simp [List.reverse_replicate]

theorem joinComps_cons_ex (c : PyChars) (cs' : List PyChars) :
    ∃ X, joinComps (c :: cs') = c ++ X := by
  rcases cs' with _ | ⟨d, rest⟩
  · exact ⟨[], by simp [joinComps]⟩
  · exact ⟨'/' :: joinComps (d :: rest), rfl⟩

theorem splitSl_joinComps (cs : List PyChars) (hne : cs ≠ [])
    (hcs : ∀ c ∈ cs, '/' ∉ c) : splitSl (joinComps cs) = cs := by
  induction cs with
  | nil => exact absurd rfl hne
  | cons c rest ih =>
    have hnc : ∀ ch ∈ c, ch ≠ '/' :=
      fun ch hch heq => (hcs c (List.mem_cons_self _ _)) (heq ▸ hch)
    rcases rest with _ | ⟨d, rest'⟩
    · rw [show joinComps [c] = c from by simp [joinComps]]
      exact splitSl_no_slash c hnc
    · rw [show joinComps (c :: d :: rest') = c ++ '/' :: joinComps (d :: rest')
        from rfl]
      rw [splitSl_append_slash, splitSl_no_slash c hnc,
        ih (by simp) (fun x hx => hcs x (List.mem_cons_of_mem _ hx))]
      rfl

theorem initSlashes_r (isl : Nat) (hisl : isl ≤ 2) (cs : List PyChars)
    (hcs : ∀ c ∈ cs, c ≠ [] ∧ '/' ∉ c) (hne : ¬(isl = 0 ∧ cs = [])) :
    initSlashes (List.replicate isl '/' ++ joinComps cs) = isl := by
  interval_cases isl
  · rcases cs with _ | ⟨c, cs'⟩
    · exact absurd ⟨rfl, rfl⟩ hne
    · have hmemc := hcs c (List.mem_cons_self _ _)
      rcases c with _ | ⟨ch, c''⟩
      · exact absurd rfl hmemc.1
      · have hch : ch ≠ '/' :=
          fun heq => hmemc.2 (List.mem_cons.mpr (Or.inl heq.symm))
        obtain ⟨X, hX⟩ := joinComps_cons_ex (ch :: c'') cs'
        rw [show (List.replicate 0 '/' : PyChars) = [] from rfl,
          List.nil_append, hX, List.cons_append]
        simp [initSlashes, hch]
  · rcases cs with _ | ⟨c, cs'⟩
    · simp [joinComps, List.replicate, initSlashes]
    · have hmemc := hcs c (List.mem_cons_self _ _)
      rcases c with _ | ⟨ch, c''⟩
      · exact absurd rfl hmemc.1
      · have hch : ch ≠ '/' :=
          fun heq => hmemc.2 (List.mem_cons.mpr (Or.inl heq.symm))
        obtain ⟨X, hX⟩ := joinComps_cons_ex (ch :: c'') cs'
        rw [hX, List.cons_append, show List.replicate 1 '/' = ['/'] from rfl]
        simp [initSlashes, hch]
  · rcases cs with _ | ⟨c, cs'⟩
    · simp [joinComps, List.replicate, initSlashes]
    · have hmemc := hcs c (List.mem_cons_self _ _)
      rcases c with _ | ⟨ch, c''⟩
      · exact absurd rfl hmemc.1
      · have hch : ch ≠ '/' :=
          fun heq => hmemc.2 (List.mem_cons.mpr (Or.inl heq.symm))
        obtain ⟨X, hX⟩ := joinComps_cons_ex (ch :: c'') cs'
        rw [hX, List.cons_append,
          show List.replicate 2 '/' = ['/', '/'] from rfl]
        simp [initSlashes, hch]

theorem normpathL_congr (A B : PyChars) (hA : A ≠ []) (hB : B ≠ [])
    (hisl : initSlashes A = initSlashes B)
    (hres : resolveComps (initSlashes B != 0) (splitSl A) =
            resolveComps (initSlashes B != 0) (splitSl B)) :
    normpathL A = normpathL B := by
  unfold normpathL
  rw [if_neg hA, if_neg hB, hisl, hres]

theorem normpathL_fixpoint (isl : Nat) (cs : List PyChars)
    (hisl : isl ≤ 2)
    (helts : ∀ c ∈ cs, c ≠ [] ∧ c ≠ ['.'] ∧ '/' ∉ c)
    (hshape : ∃ m N, cs = List.replicate m ['.', '.'] ++ N ∧ ['.', '.'] ∉ N ∧
      ((isl != 0) = true → m = 0))
    (hr : List.replicate isl '/' ++ joinComps cs ≠ []) :
    normpathL (List.replicate isl '/' ++ joinComps cs) =
      List.replicate isl '/' ++ joinComps cs := by
  have hne0 : ¬(isl = 0 ∧ cs = []) := by
    rintro ⟨h0, hc⟩
    subst h0
    subst hc
    exact hr (by simp [joinComps])
  have hisl_eq : initSlashes (List.replicate isl '/' ++ joinComps cs) = isl :=
    initSlashes_r isl hisl cs (fun c hc => ⟨(helts c hc).1, (helts c hc).2.2⟩) hne0
  have hresolve : resolveComps (isl != 0)
      (splitSl (List.replicate isl '/' ++ joinComps cs)) = cs := by
    rw [splitSl_replicate_slash]
    rcases hcs0 : cs with _ | ⟨c, cs'⟩
    · rw [show joinComps [] = ([] : PyChars) from rfl,
        show splitSl [] = [([] : PyChars)] from rfl,
        resolveComps, resolveAcc_empties,
        show resolveAcc (isl != 0) [] [[]] = resolveAcc (isl != 0) [] [] from by
          simp [resolveAcc]]
      rfl
    · rw [← hcs0, splitSl_joinComps cs (by rw [hcs0]; simp)
        (fun d hd => (helts d hd).2.2)]
      rw [resolveComps, resolveAcc_empties]
      have := resolveComps_fixed (isl != 0) cs
        (fun d hd => ⟨(helts d hd).1, (helts d hd).2.1⟩) hshape
      rwa [resolveComps] at this
  unfold normpathL
  rw [if_neg hr, hisl_eq, hresolve, if_neg hr]

theorem normpathL_idem (p : PyChars) : normpathL (normpathL p) = normpathL p := by
  by_cases hp : p = []
  · subst hp; decide
  · obtain ⟨helts, m, N, hcs, hddN, habm⟩ :=
      resolveComps_shape (initSlashes p != 0) (splitSl p) (splitSl_mem_no_slash p)
    have hnp : normpathL p =
        if List.replicate (initSlashes p) '/' ++
            joinComps (resolveComps (initSlashes p != 0) (splitSl p)) = []
        then ['.']
        else List.replicate (initSlashes p) '/' ++
            joinComps (resolveComps (initSlashes p != 0) (splitSl p)) := by
      unfold normpathL
      rw [if_neg hp]
    by_cases hr : List.replicate (initSlashes p) '/' ++
        joinComps (resolveComps (initSlashes p != 0) (splitSl p)) = []
    · rw [hnp, if_pos hr]
      decide
    · rw [hnp, if_neg hr]
      exact normpathL_fixpoint (initSlashes p)
        (resolveComps (initSlashes p != 0) (splitSl p))
        (initSlashes_le_two p) helts ⟨m, N, hcs, hddN, habm⟩ hr

theorem normpath_join_slashrun (P T : PyChars) (k : Nat) (hk : 1 ≤ k)
    (hP : P ≠ []) (hPl : P.getLast? ≠ some '/') (hT : ∀ c ∈ T, c ≠ '/') :
    normpathL (P ++ '/' :: T) = normpathL (P ++ (List.replicate k '/' ++ T)) := by
  obtain ⟨k', rfl⟩ : ∃ k', k = k' + 1 := ⟨k - 1, by omega⟩
  rw [show List.replicate (k' + 1) '/' ++ T = '/' :: (List.replicate k' '/' ++ T)
    from by rw [List.replicate_succ, List.cons_append]]
  apply normpathL_congr
  · simp [hP]
  · simp [hP]
  · exact initSlashes_congr P _ _ hP hPl
  · have e1 : splitSl (P ++ '/' :: T) = splitSl P ++ [T] := by
      rw [splitSl_append_slash, splitSl_no_slash T hT]
    have e2 : splitSl (P ++ '/' :: (List.replicate k' '/' ++ T)) =
        splitSl P ++ (List.replicate k' [] ++ [T]) := by
      rw [splitSl_append_slash, splitSl_replicate_slash, splitSl_no_slash T hT]
    simp only [resolveComps]
    rw [e1, e2, resolveAcc_append, resolveAcc_append, resolveAcc_empties]

theorem split_join_norm_core (t hr : PyChars)
    (ht : ∀ c ∈ t, c ≠ '/')
    (hhd : ∀ x xs, hr = x :: xs → x = '/') :
    normpathL (join2L
      (if hr.any (fun c => c != '/') = true
        then (hr.dropWhile (fun c => c == '/')).reverse
        else hr.reverse)
      t.reverse) = normpathL (hr.reverse ++ t.reverse) := by
  have htr : ∀ c ∈ t.reverse, c ≠ '/' := fun c hc => ht c (List.mem_reverse.mp hc)
  have hb1 : ¬(t.reverse.head? = some '/') := by
    rcases htt : t.reverse with _ | ⟨x, xs⟩
    · simp
    · have hx : x ∈ t.reverse := by rw [htt]; exact List.mem_cons_self _ _
      intro hcon
      simp only [List.head?, Option.some.injEq] at hcon
      exact htr x hx hcon
  by_cases hany : hr.any (fun c => c != '/') = true
  · rw [if_pos hany]
    have hg_ne : hr.dropWhile (fun c => c == '/') ≠ [] := by
      intro h
      have hall2 := List.dropWhile_eq_nil_iff.mp h
      obtain ⟨x, hx, hxne⟩ := List.any_eq_true.mp hany
      rw [bne_iff_ne] at hxne
      exact hxne (by simpa using hall2 x hx)
    obtain ⟨gh, gt, hgeq⟩ :
        ∃ gh gt, hr.dropWhile (fun c => c == '/') = gh :: gt := by
      rcases h : hr.dropWhile (fun c => c == '/') with _ | ⟨gh, gt⟩
      · exact absurd h hg_ne
      · exact ⟨gh, gt, rfl⟩
    have hgh : gh ≠ '/' := by
      have := dropWhile_head_false (fun c => c == '/') hr gh gt hgeq
      simpa using this
    have husplit : hr.takeWhile (fun c => c == '/') ++ (gh :: gt) = hr := by
      rw [← hgeq]
      exact List.takeWhile_append_dropWhile _ _
    have hu_all : ∀ x ∈ hr.takeWhile (fun c => c == '/'), x = '/' := by
      intro x hx
      simpa using List.mem_takeWhile_imp hx
    have hu_repl : hr.takeWhile (fun c => c == '/') =
        List.replicate (hr.takeWhile (fun c => c == '/')).length '/' :=
      List.eq_replicate_length.mpr hu_all
    obtain ⟨k, hk1, hdecomp⟩ :
        ∃ k, 1 ≤ k ∧ hr = List.replicate k '/' ++ (gh :: gt) := by
      refine ⟨(hr.takeWhile (fun c => c == '/')).length, ?_, ?_⟩
      · rcases hhr2 : hr with _ | ⟨x, xs⟩
        · rw [hhr2] at hgeq
          simp at hgeq
        · have hx : x = '/' := hhd x xs hhr2
          rw [List.takeWhile_cons, if_pos (by simp [hx])]
          simp
      · rw [← hu_repl]
        exact husplit.symm
    rw [hgeq, hdecomp]
    rw [show (List.replicate k '/' ++ (gh :: gt)).reverse ++ t.reverse =
        (gh :: gt).reverse ++ (List.replicate k '/' ++ t.reverse) from by
      rw [List.reverse_append, List.reverse_replicate, List.append_assoc]]
    have hPne : (gh :: gt).reverse ≠ [] := by simp
    have hPl : (gh :: gt).reverse.getLast? ≠ some '/' := by
      rw [List.getLast?_reverse]
      simp [hgh]
    have hjoin : join2L (gh :: gt).reverse t.reverse =
        (gh :: gt).reverse ++ '/' :: t.reverse := by
      simp only [join2L]
      rw [if_neg hb1, if_neg (not_or.mpr ⟨hPne, hPl⟩)]
    rw [hjoin]
    exact normpath_join_slashrun (gh :: gt).reverse t.reverse k hk1 hPne hPl htr
  · rw [if_neg hany]
    have hanyf : hr.any (fun c => c != '/') = false := by
      revert hany
      cases hr.any (fun c => c != '/') <;> simp
    have hall : ∀ x ∈ hr, x = '/' := by
      intro x hx
      have := List.any_eq_false.mp hanyf x hx
      simpa [bne_iff_ne] using this
    rcases hr with _ | ⟨x, xs⟩
    · simp [join2L, hb1]
    · have hx : x = '/' := hall x (List.mem_cons_self _ _)
      have hlast : (x :: xs).reverse.getLast? = some '/' := by
        rw [List.getLast?_reverse]
        simp [hx]
      simp only [join2L]
      rw [if_neg hb1, if_pos (Or.inr hlast)]

theorem split_join_norm (p : PyChars) :
    normpathL (join2L (splitL p).1 (splitL p).2) = normpathL p := by
  have ht : ∀ c ∈ p.reverse.takeWhile (fun c => c != '/'), c ≠ '/' := by
    intro c hc
    have := List.mem_takeWhile_imp hc
    simpa [bne_iff_ne] using this
  have hhd : ∀ x xs, p.reverse.dropWhile (fun c => c != '/') = x :: xs →
      x = '/' := by
    intro x xs h
    have := dropWhile_head_false (fun c => c != '/') p.reverse x xs h
    simpa using this
  have hcore := split_join_norm_core (p.reverse.takeWhile (fun c => c != '/'))
    (p.reverse.dropWhile (fun c => c != '/')) ht hhd
  have hsplit1 : (splitL p).1 =
      (if (p.reverse.dropWhile (fun c => c != '/')).any (fun c => c != '/') = true
        then ((p.reverse.dropWhile (fun c => c != '/')).dropWhile
          (fun c => c == '/')).reverse
        else (p.reverse.dropWhile (fun c => c != '/')).reverse) := rfl
  have hsplit2 : (splitL p).2 =
      (p.reverse.takeWhile (fun c => c != '/')).reverse := rfl
  rw [hsplit1, hsplit2, hcore]
  congr 1
  rw [← List.reverse_append, List.takeWhile_append_dropWhile, List.reverse_reverse]

/-- C6 amended: joining `dirname(p)` and `basename(p)` with the variant's
join operation and normalizing the result equals the normalized form of
`p`, for every local path string `p` (raw concatenation with a separator
fails whenever dirname is empty or slash-terminated or `p` has repeated
separators, e.g. at `p = "a"`). -/
theorem c6_join_split_normalized (ctx : PosixCtx) (p : PyChars) :
    (Path.normpathOp (posixPathModule ctx) .posix
        (Path.joinpathOp (posixPathModule ctx) .posix
          (Path.dirnameOp (posixPathModule ctx) .posix p).str
          [(Path.basenameOp (posixPathModule ctx) .posix p).str]).str).str =
      (Path.normpathOp (posixPathModule ctx) .posix p).str := by
  show normpathL (join2L (splitL p).1 (splitL p).2) = normpathL p
  exact split_join_norm p

/-- C7 amended: `expand()` is the composition expandvars then expanduser
then normpath in that fixed order; and expand is idempotent for every `p`
whose once-expanded result contains no `'$'` and does not start with `'~'`
(normalization can create a leading `'~'`, e.g. from `"./~"`, which a
second pass would expand). -/
theorem c7_expand_composition_conditional_idem (ctx : PosixCtx) (p : PyChars) :
    (∀ (M : PathModule) (v : Variant) (s : PyChars),
        Path.expandOp M v s =
          .path v (M.normpath (M.expanduser (M.expandvars s)))) ∧
    ((Path.expandOp (posixPathModule ctx) .posix p).str.contains '$' = false →
      (Path.expandOp (posixPathModule ctx) .posix p).str.head? ≠ some '~' →
      Path.expandOp (posixPathModule ctx) .posix
          (Path.expandOp (posixPathModule ctx) .posix p).str =
        Path.expandOp (posixPathModule ctx) .posix p) := by
  constructor
  · intro M v s
    rfl
  · intro h1 h2
    have hv : expandvarsL ctx.env
        (Path.expandOp (posixPathModule ctx) .posix p).str =
        (Path.expandOp (posixPathModule ctx) .posix p).str := by
      unfold expandvarsL
      rw [if_neg (by rw [h1]; simp)]
    have hu : expanduserL ctx.envHome ctx.pwuidDir ctx.pwnamDir
        (Path.expandOp (posixPathModule ctx) .posix p).str =
        (Path.expandOp (posixPathModule ctx) .posix p).str := by
      unfold expanduserL
      rw [if_pos h2]
    have hn : normpathL (Path.expandOp (posixPathModule ctx) .posix p).str =
        (Path.expandOp (posixPathModule ctx) .posix p).str := by
      have hform : (Path.expandOp (posixPathModule ctx) .posix p).str =
          normpathL (expanduserL ctx.envHome ctx.pwuidDir ctx.pwnamDir
            (expandvarsL ctx.env p)) := rfl
      rw [hform]
      exact normpathL_idem _
    have hstep : Path.expandOp (posixPathModule ctx) .posix
        (Path.expandOp (posixPathModule ctx) .posix p).str =
        PyStr.path .posix (normpathL (expanduserL ctx.envHome ctx.pwuidDir
          ctx.pwnamDir (expandvarsL ctx.env
            (Path.expandOp (posixPathModule ctx) .posix p).str))) := rfl
    rw [hstep, hv, hu, hn]
    rfl

/-- C7 witness: `/a/../b` expands to `/b`, which has no `'$'` and no
leading `'~'`, and a second expansion leaves it unchanged. -/
theorem c7_witness :
    (Path.expandOp (posixPathModule posixCtx1) .posix
        "/a/../b".toList).str.contains '$' = false ∧
    (Path.expandOp (posixPathModule posixCtx1) .posix
        "/a/../b".toList).str.head? ≠ some '~' ∧
    Path.expandOp (posixPathModule posixCtx1) .posix
        (Path.expandOp (posixPathModule posixCtx1) .posix
          "/a/../b".toList).str =
      Path.expandOp (posixPathModule posixCtx1) .posix "/a/../b".toList :=
  ⟨by decide, by decide,
   (c7_expand_composition_conditional_idem posixCtx1 "/a/../b".toList).2
     (by decide) (by decide)⟩

end StorageUtils
